import Mathlib

/-!
Shallow embedding of the shush library (src/shush/__init__.py): a fluent
builder for external-process pipelines.  Python values that can appear as
arguments are modelled by the inductive `PyVal`; Python dicts (which keep
insertion order and have unique keys) are modelled by association lists with
Python dict-merge semantics; OS side effects of `Pipeline.check` are modelled
by explicit state passing over `OSState` with an event trace.
-/

namespace Shush

/-- Python values used as positional arguments / option values / popen kwargs.
`vList` models any non-str, non-bytes `collections.abc.Sequence` (list, tuple). -/
inductive PyVal where
  | vStr (s : String)
  | vBytes (b : List UInt8)
  | vBool (b : Bool)
  | vNone
  | vInt (n : Int)
  | vList (xs : List PyVal)

/-- The CPython `subprocess.PIPE` sentinel (the int -1). -/
def subprocessPIPE : PyVal := .vInt (-1)

/-- The CPython `subprocess.STDOUT` sentinel (the int -2). -/
def subprocessSTDOUT : PyVal := .vInt (-2)

/-- The CPython `subprocess.DEVNULL` sentinel (the int -3). -/
def subprocessDEVNULL : PyVal := .vInt (-3)

/-- Python `repr` of a bytes object, approximated (no escape sequences):
the bytes shown as latin-1 characters between b-quote delimiters. -/
def pyReprBytes (b : List UInt8) : String :=
  "b" ++ "'" ++ String.mk (b.map (fun c => Char.ofNat c.toNat)) ++ "'"

/-- Python `repr()`, approximated over the modelled value shapes (string
escaping is not modelled; it is irrelevant to the argument-vector claims). -/
def pyRepr : PyVal → String
  | .vStr s => "'" ++ s ++ "'"
  | .vBytes b => pyReprBytes b
  | .vBool true => "True"
  | .vBool false => "False"
  | .vNone => "None"
  | .vInt n => toString n
  | .vList xs => "[" ++ String.intercalate ", " (xs.attach.map (fun x => pyRepr x.1)) ++ "]"
decreasing_by
  cases x; simp_all [List.mem_attach]
  calc sizeOf _ < sizeOf xs := List.sizeOf_lt_of_mem (by assumption)
    _ < 1 + sizeOf xs := by omega

/-- Python `str()`: identity on str, `repr` on everything else
(matching CPython, where `str` of bytes and of lists is their repr). -/
def pyStr : PyVal → String
  | .vStr s => s
  | v => pyRepr v

/-- Python dict insertion: overwrite in place if the key is present,
else append at the end (insertion order preserved). -/
def dictInsert (d : List (String × PyVal)) (k : String) (v : PyVal) :
    List (String × PyVal) :=
  if d.any (fun p => p.1 = k) then
    d.map (fun p => if p.1 = k then (k, v) else p)
  else d ++ [(k, v)]

/-- Python dict merge as in a literal with two splatted dicts: start from
the left dict and insert each right-hand pair in order (right side wins). -/
def dictMerge (a b : List (String × PyVal)) : List (String × PyVal) :=
  b.foldl (fun d p => dictInsert d p.1 p.2) a

/-- Python dict lookup (first matching key; keys are unique in real dicts). -/
def dictGet (d : List (String × PyVal)) (k : String) : Option PyVal :=
  (d.find? (fun p => p.1 = k)).map Prod.snd

/-- Whether a key is present, Python `k in d`. -/
def dictHas (d : List (String × PyVal)) (k : String) : Bool :=
  d.any (fun p => p.1 = k)

/-- The `Arguments` accumulator from the source: a tuple of positional values
plus a kwargs dict, combined by `__call__`. -/
structure Arguments where
  args : List PyVal := []
  kwargs : List (String × PyVal) := []

/-- Python method `Arguments.__call__`: returns a fresh accumulator with the new positionals
appended and the new kwargs dict-merged on the right. -/
def Arguments.call (a : Arguments) (args : List PyVal)
    (kwargs : List (String × PyVal)) : Arguments :=
  ⟨a.args ++ args, dictMerge a.kwargs kwargs⟩

/-- The free function `option(name)` from the source: single-character names
get one dash, longer names get two dashes and underscores become hyphens. -/
def optionName (name : String) : String :=
  if name.length = 1 then "-" ++ name
  else "--" ++ name.replace "_" "-"

/-- A `Command` from the source: a program name, the accumulated popen
arguments (spawn parameters), and the accumulated argv `Arguments`. -/
structure Command where
  program : String
  popen : Arguments := {}
  argv : Arguments := {}

/-- Python method `Command.__call__`: refine the argv accumulator, everything else kept. -/
def Command.call (c : Command) (args : List PyVal)
    (kwargs : List (String × PyVal)) : Command :=
  ⟨c.program, c.popen, c.argv.call args kwargs⟩

/-- Python identity test `v is True` from the option loop of flatten. -/
def pyIsTrue : PyVal → Bool
  | .vBool true => true
  | _ => false

/-- Tokens contributed by one kwargs entry in `Command.flatten`: a bare flag
when the value is the Python constant `True`, otherwise a separate-token
short option or an inline long option. -/
def flattenOption (k : String) (v : PyVal) : List PyVal :=
  if pyIsTrue v then [.vStr (optionName k)]
  else if k.length = 1 then [.vStr (optionName k), .vStr (pyStr v)]
  else [.vStr (optionName k ++ "=" ++ pyStr v)]

/-- Tokens contributed by one positional value in `Command.flatten`: `False`
and `None` are skipped, str and bytes pass verbatim, any other Sequence is
expanded one level with each element stringified, the rest are stringified. -/
def flattenPositional : PyVal → List PyVal
  | .vBool false => []
  | .vNone => []
  | .vStr s => [.vStr s]
  | .vBytes b => [.vBytes b]
  | .vList xs => xs.map (fun x => .vStr (pyStr x))
  | v => [.vStr (pyStr v)]

/-- Python method `Command.flatten`: the program name, then the option tokens in kwargs
insertion order, then the positional tokens in sequence order. -/
def Command.flatten (c : Command) : List PyVal :=
  .vStr c.program ::
    (c.argv.kwargs.flatMap (fun p => flattenOption p.1 p.2) ++
     c.argv.args.flatMap flattenPositional)

/-- Python method `Command.join`: raises AssertionError when stderr is already configured,
else returns a command whose popen kwargs gain stderr bound to the
`subprocess.STDOUT` sentinel. -/
def Command.join (c : Command) : Except Unit Command :=
  if dictHas c.popen.kwargs "stderr" then .error ()
  else .ok ⟨c.program, c.popen.call [] [("stderr", subprocessSTDOUT)], c.argv⟩

/-- An input redirection source for a Pipeline: text, bytes, a filesystem
path, or an already-open readable handle (modelled by its descriptor). -/
inductive Source where
  | srcStr (s : String)
  | srcBytes (b : List UInt8)
  | srcPath (p : String)
  | srcHandle (h : Nat)

/-- A `Pipeline` from the source: an ordered list of commands plus an
optional stdin source (the Python default is None). -/
structure Pipeline where
  commands : List Command
  stdin : Option Source := Option.none

/-- Python method `Pipeline.__lt__` (the read-from operator): asserts that no input source
was attached yet (raising AssertionError otherwise, before any process is
spawned) and returns a fresh Pipeline with the source attached; the receiver
is not mutated. -/
def Pipeline.ltOp (p : Pipeline) (stdin : Source) : Except Unit Pipeline :=
  match p.stdin with
  | Option.none => .ok ⟨p.commands, some stdin⟩
  | some _ => .error ()

/-- Operands of the pipe operator: either a bare Command or a Pipeline. -/
inductive CmdOrPipe where
  | cmd (c : Command)
  | pl (p : Pipeline)

/-- The free function `pipe(x)` from the source: wrap a bare command in a
one-stage Pipeline, pass a Pipeline through unchanged. -/
def pipe : CmdOrPipe → Pipeline
  | .cmd c => ⟨[c], Option.none⟩
  | .pl p => p

/-- Python method `Pipeline.__or__`: concatenate the stage lists, keeping only the left
operand's stdin (the right operand's stdin is dropped without error). -/
def Pipeline.orOp (p : Pipeline) (tail : CmdOrPipe) : Pipeline :=
  ⟨p.commands ++ (pipe tail).commands, p.stdin⟩

/-- The pipe operator on either operand shape; `Command.__or__` wraps the
command in a one-stage Pipeline first. -/
def CmdOrPipe.orOp : CmdOrPipe → CmdOrPipe → CmdOrPipe
  | .cmd c, tail => .pl (Pipeline.orOp ⟨[c], Option.none⟩ tail)
  | .pl p, tail => .pl (Pipeline.orOp p tail)

/-! ## Execution model

`Pipeline.check` performs OS effects: creating pipes, opening files, writing
bytes, closing descriptors, and spawning processes.  These are modelled by
explicit state passing over `OSState`: descriptors are numbered by a
monotone counter, the set of descriptors the call can still see open is
tracked, and every effect is recorded in an event trace.  Spawn events
record the stage index, the stdin handle passed (None = inherit the parent
stream), and a snapshot of the open descriptors at the moment of the spawn.
Exit statuses of the child processes are an oracle supplied as a list
aligned with the stage list. -/

/-- One OS-level effect of the execution engine. -/
inductive Event where
  | pipeCreate (r w : Nat)
  | writeBytes (fd : Nat) (data : List UInt8)
  | closeFd (fd : Nat)
  | openRead (p : String) (fd : Nat)
  | openWrite (fd : Nat)
  | spawnAsync (i : Nat) (stdin : Option Nat) (snapshot : List Nat)
  | spawnSync (i : Nat) (stdin : Option Nat) (code : Int) (snapshot : List Nat)

/-- The modelled OS state threaded through one `check` call. -/
structure OSState where
  nextFd : Nat := 0
  openFds : List Nat := []
  events : List Event := []

/-- Record an event. -/
def OSState.emit (st : OSState) (e : Event) : OSState :=
  { st with events := st.events ++ [e] }

/-- Allocate a fresh open descriptor. -/
def OSState.openNew (st : OSState) : Nat × OSState :=
  (st.nextFd,
   { st with nextFd := st.nextFd + 1, openFds := st.openFds ++ [st.nextFd] })

/-- Close a descriptor (file-object close). -/
def OSState.close (st : OSState) (fd : Nat) : OSState :=
  { st with openFds := st.openFds.filter (fun x => x ≠ fd),
            events := st.events ++ [.closeFd fd] }

/-- Python `str.encode()` (UTF-8). -/
def encodeStr (s : String) : List UInt8 := s.toUTF8.toList

/-- The bytes branch of input resolution in `Pipeline.check`: `os.pipe()`
yields a read/write descriptor pair, the bytes are written in full to the
write end, the write end is closed, and the read end is the input handle. -/
def resolveBytesInput (st : OSState) (b : List UInt8) : Option Nat × OSState :=
  let r := st.nextFd
  let w := st.nextFd + 1
  let st : OSState :=
    { st with nextFd := st.nextFd + 2, openFds := st.openFds ++ [r, w],
              events := st.events ++ [.pipeCreate r w, .writeBytes w b] }
  (some r, st.close w)

/-- Input resolution at the top of `Pipeline.check`: text is encoded and
then handled as bytes; bytes go through an OS pipe; a path is opened
read-only; an open handle is used directly; absent input means inherit. -/
def resolveInput (st : OSState) (src : Option Source) : Option Nat × OSState :=
  match src with
  | Option.none => (Option.none, st)
  | some (.srcStr s) => resolveBytesInput st (encodeStr s)
  | some (.srcBytes b) => resolveBytesInput st b
  | some (.srcPath p) =>
      let fd := st.nextFd
      (some fd,
       { st with nextFd := st.nextFd + 1, openFds := st.openFds ++ [fd],
                 events := st.events ++ [.openRead p fd] })
  | some (.srcHandle h) => (some h, st)

/-- The stdout argument `Pipeline.check` receives for its last stage. -/
inductive Sink where
  | inheritS
  | pipeS
  | devnullS
  | strS (p : String)
  | bytesS (p : List UInt8)
  | pathS (p : String)
  | fdS (h : Nat)

/-- A resolved stdout target handed to a spawn call. -/
inductive Target where
  | inheritT
  | pipeT
  | devnullT
  | fdT (h : Nat)

/-- Last-stage sink resolution inside the loop of `Pipeline.check`:
str, bytes and Path sinks are opened for writing (the engine does not close
them afterwards); the sentinels and open handles pass through. -/
def resolveSink (st : OSState) (snk : Sink) : Target × OSState :=
  match snk with
  | .inheritS => (.inheritT, st)
  | .pipeS => (.pipeT, st)
  | .devnullS => (.devnullT, st)
  | .fdS h => (.fdT h, st)
  | .strS _ => let (fd, st) := st.openNew; (.fdT fd, st.emit (.openWrite fd))
  | .bytesS _ => let (fd, st) := st.openNew; (.fdT fd, st.emit (.openWrite fd))
  | .pathS _ => let (fd, st) := st.openNew; (.fdT fd, st.emit (.openWrite fd))

/-- Python method `Command.start` as used by the loop for a non-final stage: spawn the
process without waiting, with stdout a fresh OS pipe (`subprocess.PIPE`);
the engine receives the read end as `proc.stdout`.  The child's eventual
exit status is never consulted. -/
def spawnStart (st : OSState) (i : Nat) (stdin : Option Nat) : Nat × OSState :=
  (st.emit (.spawnAsync i stdin st.openFds)).openNew

/-- The statement `if stdin is not None: stdin.close()` after each spawn:
an inherit marker is left alone, an owned handle is closed. -/
def stepClose (st : OSState) (stdin : Option Nat) : OSState :=
  match stdin with
  | some fd => st.close fd
  | Option.none => st

/-- The loop of `Pipeline.check` over the remaining stages, carrying the
stage index, the current stdin handle, the requested sink and the state.
The last stage is run via `Command.check` (synchronous, `check=True`): on a
non-zero exit status `subprocess.run` raises before the engine reaches the
close of the current stdin handle, so the error carries the state as it is
at that moment.  Every earlier stage is spawned via `Command.start` with
`subprocess.PIPE` as stdout, and its stdin handle is closed right after. -/
def checkLoop (exits : List Int) (i : Nat) (stdin : Option Nat) (snk : Sink)
    (st : OSState) : Except (Int × OSState) OSState :=
  match exits with
  | [] => .ok st
  | [e] =>
      let (_tgt, st) := resolveSink st snk
      let st := st.emit (.spawnSync i stdin e st.openFds)
      if e = 0 then .ok (stepClose st stdin)
      else .error (e, st)
  | _e :: e2 :: rest =>
      let (out, st) := spawnStart st i stdin
      checkLoop (e2 :: rest) (i + 1) (some out) snk (stepClose st stdin)

/-- Python method `Pipeline.check`: resolve the input source, then run the stage loop from
index 0.  `exits` is the oracle of exit statuses, aligned with the stages. -/
def Pipeline.check (p : Pipeline) (exits : List Int) (snk : Sink)
    (st : OSState) : Except (Int × OSState) OSState :=
  let (stdin, st) := resolveInput st p.stdin
  checkLoop exits 0 stdin snk st

/-- The argument shapes `Pipeline.__gt__` (the write-to operator)
distinguishes before delegating to `check`. -/
inductive GtArg where
  | gtNone
  | gtShell (stdout : Sink)
  | gtStr (s : String)
  | gtSink (snk : Sink)

/-- Python method `Pipeline.__gt__`: a literal None becomes the null device, a Shell
contributes its configured stdout, a str is opened for writing here, and
anything else (bytes, Path, handle) passes through to `check` unresolved. -/
def Pipeline.gtOp (p : Pipeline) (exits : List Int) (arg : GtArg)
    (st : OSState) : Except (Int × OSState) OSState :=
  match arg with
  | .gtNone => p.check exits .devnullS st
  | .gtShell o => p.check exits o st
  | .gtStr _s =>
      let (fd, st) := st.openNew
      p.check exits (.fdS fd) (st.emit (.openWrite fd))
  | .gtSink k => p.check exits k st

/-- Stated from the wording of the option-flattening claim, to be compared
with `flattenOption` (which is translated from the source): flag options as
one dash-token, valued short options as two tokens, valued long options as
one inline-equals token. -/
def flattenOptionSpec (k : String) (v : PyVal) : List PyVal :=
  if pyIsTrue v then
    if k.length = 1 then [.vStr ("-" ++ k)]
    else [.vStr ("--" ++ k.replace "_" "-")]
  else
    if k.length = 1 then [.vStr ("-" ++ k), .vStr (pyStr v)]
    else [.vStr ("--" ++ k.replace "_" "-" ++ "=" ++ pyStr v)]

/-- Claim C2: flatten emits, for each named option in insertion order,
exactly the token shapes of the claim: a bare `-k` flag for a True-valued
single-character key, a bare `--kebab-case` flag for a True-valued longer
key, the separate-token pair for a valued single-character key, and the
single inline-equals token for a valued longer key.  Python keyword names
are identifiers, hence the nonempty-key hypothesis. -/
theorem claim_C2_option_flattening (c : Command) (k : String) (v : PyVal)
    (hk : 1 ≤ k.length) :
    c.flatten = .vStr c.program ::
      (c.argv.kwargs.flatMap (fun p => flattenOption p.1 p.2) ++
       c.argv.args.flatMap flattenPositional)
    ∧ flattenOption k v = flattenOptionSpec k v := by
  refine ⟨rfl, ?_⟩
  unfold flattenOption flattenOptionSpec optionName
  cases h : pyIsTrue v <;> by_cases h1 : k.length = 1 <;> simp [h1]

/-- Witness for C2 at the four concrete option shapes of the spec. -/
theorem claim_C2_witness :
    (1 ≤ "regexp".length ∧
      flattenOption "regexp" (.vStr "foo") =
        flattenOptionSpec "regexp" (.vStr "foo")) ∧
    flattenOption "x" (.vBool true) = flattenOptionSpec "x" (.vBool true) ∧
    flattenOption "foo_bar" (.vBool true) =
      flattenOptionSpec "foo_bar" (.vBool true) ∧
    flattenOption "c" (.vStr "v") = flattenOptionSpec "c" (.vStr "v") :=
  ⟨⟨by decide,
    (claim_C2_option_flattening ⟨"grep", {}, {}⟩ "regexp" (.vStr "foo")
      (by decide)).2⟩,
   (claim_C2_option_flattening ⟨"a", {}, {}⟩ "x" (.vBool true) (by decide)).2,
   (claim_C2_option_flattening ⟨"a", {}, {}⟩ "foo_bar" (.vBool true)
     (by decide)).2,
   (claim_C2_option_flattening ⟨"a", {}, {}⟩ "c" (.vStr "v") (by decide)).2⟩

/-- Claim C3: flatten emits the program name first and then, after the
option tokens, each positional in order: nothing for `False` or `None`,
str and bytes verbatim as one token, any other Sequence expanded one level
with each element stringified as its own token (so a nested list becomes a
single stringified token, not a recursive expansion), and every remaining
value stringified as one token. -/
theorem claim_C3_positional_flattening (c : Command) :
    c.flatten = .vStr c.program ::
      (c.argv.kwargs.flatMap (fun p => flattenOption p.1 p.2) ++
       c.argv.args.flatMap flattenPositional)
    ∧ flattenPositional (.vBool false) = []
    ∧ flattenPositional .vNone = []
    ∧ (∀ s, flattenPositional (.vStr s) = [.vStr s])
    ∧ (∀ b, flattenPositional (.vBytes b) = [.vBytes b])
    ∧ (∀ xs, flattenPositional (.vList xs) = xs.map (fun x => .vStr (pyStr x)))
    ∧ (∀ n, flattenPositional (.vInt n) = [.vStr (pyStr (.vInt n))])
    ∧ flattenPositional (.vBool true) = [.vStr (pyStr (.vBool true))] :=
  ⟨rfl, rfl, rfl, fun _ => rfl, fun _ => rfl, fun _ => rfl, fun _ => rfl, rfl⟩

/-- Claim C6: attaching an input source to a Pipeline whose input is already
set fails with an AssertionError (a pure composition-time check: `ltOp`
performs no OS effects, so nothing is spawned, and the receiver is a value
that the operation never mutates), while on an unset input it returns a
fresh Pipeline with the source attached and the stages unchanged. -/
theorem claim_C6_double_set_input_guard (p : Pipeline) (s : Source) :
    (p.stdin = Option.none → p.ltOp s = .ok ⟨p.commands, some s⟩)
    ∧ (∀ s0, p.stdin = some s0 → p.ltOp s = .error ()) := by
  constructor
  · intro h; simp [Pipeline.ltOp, h]
  · intro s0 h; simp [Pipeline.ltOp, h]

/-- Witness for C6: a pipeline with an input set rejects a second source, and
one without accepts it. -/
theorem claim_C6_witness :
    Pipeline.ltOp ⟨[], some (.srcStr "a")⟩ (.srcBytes []) = .error () ∧
    Pipeline.ltOp ⟨[], Option.none⟩ (.srcBytes []) =
      .ok ⟨[], some (.srcBytes [])⟩ :=
  ⟨(claim_C6_double_set_input_guard ⟨[], some (.srcStr "a")⟩
      (.srcBytes [])).2 (.srcStr "a") rfl,
   (claim_C6_double_set_input_guard ⟨[], Option.none⟩ (.srcBytes [])).1 rfl⟩

/-- Claim C7: `join()` on a Command whose popen kwargs do not bind stderr
returns a new Command with the same program and argv whose popen kwargs gain
a binding of stderr to the `subprocess.STDOUT` sentinel (stderr follows
stdout), and fails immediately with an AssertionError when stderr is already
bound. -/
theorem claim_C7_join (c : Command) :
    (dictHas c.popen.kwargs "stderr" = false →
      c.join = .ok ⟨c.program,
        ⟨c.popen.args, c.popen.kwargs ++ [("stderr", subprocessSTDOUT)]⟩,
        c.argv⟩)
    ∧ (dictHas c.popen.kwargs "stderr" = true → c.join = .error ()) := by
  constructor
  · intro h
    have h2 : (c.popen.kwargs.any (fun p => p.1 = "stderr")) = false := h
    simp [Command.join, h, Arguments.call, dictMerge, dictInsert, h2]
  · intro h
    simp [Command.join, h]

/-- Witness for C7: join succeeds on a clean Command and fails on one whose
stderr is already configured. -/
theorem claim_C7_witness :
    Command.join ⟨"x", {}, {}⟩ =
      .ok ⟨"x", ⟨[], [("stderr", subprocessSTDOUT)]⟩, {}⟩ ∧
    Command.join ⟨"x", ⟨[], [("stderr", subprocessDEVNULL)]⟩, {}⟩ =
      .error () :=
  ⟨(claim_C7_join ⟨"x", {}, {}⟩).1 rfl,
   (claim_C7_join ⟨"x", ⟨[], [("stderr", subprocessDEVNULL)]⟩, {}⟩).2 rfl⟩

/-- Updating every binding of key `k` does not disturb lookups of other
keys. -/
theorem find?_update_ne (d : List (String × PyVal)) (k k' : String)
    (v : PyVal) (h : ¬ k' = k) :
    (d.map (fun p => if p.1 = k then (k, v) else p)).find?
        (fun p => p.1 = k')
      = d.find? (fun p => p.1 = k') := by
  induction d with
  | nil => rfl
  | cons p d ih =>
    simp only [List.map_cons]
    by_cases hp : p.1 = k
    · rw [if_pos hp,
        List.find?_cons_of_neg _ (by simp [] ; exact fun hh => h hh.symm),
        List.find?_cons_of_neg _
          (by simp [] ; intro hh; exact h (by rw [← hh, hp])),
        ih]
    · rw [if_neg hp]
      by_cases hq : p.1 = k'
      · rw [List.find?_cons_of_pos _ (by simpa using hq),
          List.find?_cons_of_pos _ (by simpa using hq)]
      · rw [List.find?_cons_of_neg _ (by simpa using hq),
          List.find?_cons_of_neg _ (by simpa using hq), ih]

/-- When key `k` occurs, updating every binding of `k` makes its lookup
return the new pair. -/
theorem find?_update_hit (d : List (String × PyVal)) (k : String) (v : PyVal)
    (hany : d.any (fun p => p.1 = k) = true) :
    (d.map (fun p => if p.1 = k then (k, v) else p)).find?
        (fun p => p.1 = k)
      = some (k, v) := by
  induction d with
  | nil => simp at hany
  | cons p d ih =>
    simp only [List.map_cons]
    by_cases hp : p.1 = k
    · rw [if_pos hp]
      exact List.find?_cons_of_pos _ (by simp)
    · rw [if_neg hp, List.find?_cons_of_neg _ (by simpa using hp)]
      apply ih
      simpa [hp] using hany

/-- Lookup after a Python dict insertion: the inserted key maps to the new
value, every other key is untouched. -/
theorem dictGet_dictInsert (d : List (String × PyVal)) (k : String)
    (v : PyVal) (k' : String) :
    dictGet (dictInsert d k v) k' =
      if k' = k then some v else dictGet d k' := by
  unfold dictGet dictInsert
  by_cases hany : d.any (fun p => p.1 = k) = true
  · rw [if_pos hany]
    by_cases hk : k' = k
    · subst hk
      rw [if_pos rfl, find?_update_hit d k' v hany]
      rfl
    · rw [if_neg hk, find?_update_ne d k k' v hk]
  · rw [if_neg hany, List.find?_append]
    by_cases hk : k' = k
    · subst hk
      have hnone : d.find? (fun p => decide (p.1 = k')) = none := by
        rw [List.find?_eq_none]
        intro x hx hpx
        exact hany (List.any_eq_true.2 ⟨x, hx, hpx⟩)
      rw [if_pos rfl, hnone]
      simp [List.find?_singleton]
    · rw [if_neg hk]
      have hone : ([(k, v)].find? (fun p => decide (p.1 = k'))) = none := by
        simp [List.find?_singleton]
        exact fun hh => hk hh.symm
      rw [hone]
      cases d.find? (fun p => decide (p.1 = k')) <;> rfl

/-- Key presence agrees with membership among the first components. -/
theorem dictHas_iff (d : List (String × PyVal)) (k : String) :
    dictHas d k = true ↔ k ∈ d.map Prod.fst := by
  simp only [dictHas, List.any_eq_true, List.mem_map, decide_eq_true_eq]

/-- Lookup after a Python dict merge: keys bound on the right take the
right-hand value, everything else keeps the left-hand value.  The keys of
the right-hand dict are unique, as in any real Python dict. -/
theorem dictGet_dictMerge (a b : List (String × PyVal))
    (hb : (b.map Prod.fst).Nodup) (k : String) :
    dictGet (dictMerge a b) k =
      if dictHas b k then dictGet b k else dictGet a k := by
  induction b generalizing a with
  | nil => simp [dictMerge, dictHas, dictGet]
  | cons p b ih =>
    obtain ⟨k0, v0⟩ := p
    simp only [List.map_cons, List.nodup_cons] at hb
    obtain ⟨hk0, hb⟩ := hb
    have step : dictMerge a ((k0, v0) :: b) = dictMerge (dictInsert a k0 v0) b :=
      rfl
    rw [step, ih _ hb]
    by_cases hkb : dictHas b k = true
    · have hkk0 : ¬ k0 = k := by
        intro hh
        exact hk0 (hh ▸ (dictHas_iff b k).1 hkb)
      rw [if_pos hkb]
      have hcons : dictHas ((k0, v0) :: b) k = true := by
        simp [dictHas, List.any_cons]
        right
        simpa [dictHas] using hkb
      rw [if_pos hcons]
      unfold dictGet
      rw [List.find?_cons_of_neg _ (by simpa using hkk0)]
    · rw [if_neg hkb, dictGet_dictInsert]
      by_cases hk : k = k0
      · subst hk
        have hcons : dictHas ((k, v0) :: b) k = true := by
          simp [dictHas, List.any_cons]
        rw [if_pos rfl, if_pos hcons]
        unfold dictGet
        rw [List.find?_cons_of_pos _ (by simp)]
        rfl
      · have hcons : ¬ dictHas ((k0, v0) :: b) k = true := by
          simp [dictHas, List.any_cons]
          constructor
          · exact fun hh => hk hh.symm
          · simpa [dictHas] using hkb
        rw [if_neg hk, if_neg hcons]

/-- Claim C8: combining an Arguments accumulator with further positionals
and options appends the positionals and dict-merges the options with the
right-hand side winning on key collision; the result is a fresh value (the
operation is pure, no accumulator is mutated), and `Command.__call__`
delegates to exactly this combination. -/
theorem claim_C8_argument_combination (a : Arguments) (xs : List PyVal)
    (ks : List (String × PyVal)) (hk : (ks.map Prod.fst).Nodup) :
    (a.call xs ks).args = a.args ++ xs
    ∧ (∀ k, dictGet (a.call xs ks).kwargs k =
        if dictHas ks k then dictGet ks k else dictGet a.kwargs k)
    ∧ (∀ c : Command, c.call xs ks = ⟨c.program, c.popen, c.argv.call xs ks⟩) :=
  ⟨rfl, fun k => dictGet_dictMerge a.kwargs ks hk k, fun _ => rfl⟩

/-- Witness for C8: a concrete combination appends positionals and lets the
right-hand option value win on the colliding key. -/
theorem claim_C8_witness :
    (([("a", subprocessSTDOUT)].map Prod.fst).Nodup) ∧
    (Arguments.call ⟨[.vStr "p"], [("a", subprocessPIPE)]⟩ [.vStr "x"]
        [("a", subprocessSTDOUT)]).args = [.vStr "p"] ++ [.vStr "x"] ∧
    dictGet (Arguments.call ⟨[.vStr "p"], [("a", subprocessPIPE)]⟩ [.vStr "x"]
        [("a", subprocessSTDOUT)]).kwargs "a" =
      if dictHas [("a", subprocessSTDOUT)] "a" then
        dictGet [("a", subprocessSTDOUT)] "a"
      else dictGet [("a", subprocessPIPE)] "a" :=
  ⟨by simp,
   (claim_C8_argument_combination ⟨[.vStr "p"], [("a", subprocessPIPE)]⟩
     [.vStr "x"] [("a", subprocessSTDOUT)] (by simp)).1,
   (claim_C8_argument_combination ⟨[.vStr "p"], [("a", subprocessPIPE)]⟩
     [.vStr "x"] [("a", subprocessSTDOUT)] (by simp)).2.1 "a"⟩

/-- Claim C9: pipe composition is associative on the stage sequence, for any
mix of Commands and Pipelines as operands. -/
theorem claim_C9_pipe_associativity (a b c : CmdOrPipe) :
    (pipe ((a.orOp b).orOp c)).commands =
      (pipe (a.orOp (b.orOp c))).commands := by
  cases a <;> cases b <;> cases c <;>
    simp [CmdOrPipe.orOp, Pipeline.orOp, pipe, List.append_assoc]

/-- Claim C10: composing with the pipe operator keeps only the left
operand's stdin — in particular, a right-operand Pipeline's stdin is
dropped, and the operation is total (it returns a Pipeline and cannot
raise), while the stage lists concatenate. -/
theorem claim_C10_or_drops_right_stdin (p q : Pipeline) (tail : CmdOrPipe) :
    (p.orOp tail).stdin = p.stdin ∧
    (p.orOp (.pl q)).commands = p.commands ++ q.commands :=
  ⟨rfl, rfl⟩

/-- Claim C4: input-source resolution — text is encoded to bytes and then
handled exactly like bytes; bytes create an OS pipe whose write end receives
the full byte string and is closed while the read end becomes the input
handle; a path is opened read-only; an already-open handle is used directly
with no state change; an absent source means inherit (no handle). -/
theorem claim_C4_input_resolution (st : OSState) (s : String)
    (b : List UInt8) (p : String) (h : Nat) :
    resolveInput st (some (.srcStr s)) =
      resolveInput st (some (.srcBytes (encodeStr s)))
    ∧ (resolveInput st (some (.srcBytes b))).1 = some st.nextFd
    ∧ (resolveInput st (some (.srcBytes b))).2.events =
        st.events ++
          [.pipeCreate st.nextFd (st.nextFd + 1),
           .writeBytes (st.nextFd + 1) b, .closeFd (st.nextFd + 1)]
    ∧ st.nextFd ∈ (resolveInput st (some (.srcBytes b))).2.openFds
    ∧ st.nextFd + 1 ∉ (resolveInput st (some (.srcBytes b))).2.openFds
    ∧ resolveInput st (some (.srcPath p)) =
        (some st.nextFd,
         { nextFd := st.nextFd + 1, openFds := st.openFds ++ [st.nextFd],
           events := st.events ++ [.openRead p st.nextFd] })
    ∧ resolveInput st (some (.srcHandle h)) = (some h, st)
    ∧ resolveInput st Option.none = (Option.none, st) := by
  refine ⟨rfl, rfl, ?_, ?_, ?_, rfl, rfl, rfl⟩
  · simp [resolveInput, resolveBytesInput, OSState.close]
  · simp [resolveInput, resolveBytesInput, OSState.close, List.mem_filter,
      List.mem_append]
  · simp [resolveInput, resolveBytesInput, OSState.close, List.mem_filter,
      List.mem_append]

/-- Stage index of an asynchronous (non-waiting) spawn event. -/
def Event.asyncIdx : Event → Option Nat
  | .spawnAsync i _ _ => some i
  | _ => Option.none

/-- Stage index of a synchronous (blocking, checked) spawn event. -/
def Event.syncIdx : Event → Option Nat
  | .spawnSync i _ _ _ => some i
  | _ => Option.none

/-- Indices of asynchronously spawned stages, in trace order. -/
def asyncIdxs (es : List Event) : List Nat := es.filterMap Event.asyncIdx

/-- Indices of synchronously spawned stages, in trace order. -/
def syncIdxs (es : List Event) : List Nat := es.filterMap Event.syncIdx

/-- The OS state a run ends in, whether it returns or raises. -/
def runState : Except (Int × OSState) OSState → OSState
  | .error (_, st) => st
  | .ok st => st

/-- Unfolding of `Pipeline.check` through the input-resolution let. -/
theorem Pipeline.check_def (p : Pipeline) (exits : List Int) (snk : Sink)
    (st : OSState) :
    p.check exits snk st =
      checkLoop exits 0 (resolveInput st p.stdin).1 snk
        (resolveInput st p.stdin).2 := by
  unfold Pipeline.check
  rcases hres : resolveInput st p.stdin with ⟨a, b⟩
  rfl

/-- Input resolution spawns nothing: it contributes no spawn events. -/
theorem resolveInput_idxs (st : OSState) (src : Option Source) :
    asyncIdxs (resolveInput st src).2.events = asyncIdxs st.events
    ∧ syncIdxs (resolveInput st src).2.events = syncIdxs st.events := by
  rcases src with _ | src
  · exact ⟨rfl, rfl⟩
  rcases src with s | b | p | h <;>
    simp [resolveInput, resolveBytesInput, OSState.close, asyncIdxs,
      syncIdxs, Event.asyncIdx, Event.syncIdx]

/-- Sink resolution spawns nothing either. -/
theorem resolveSink_idxs (st : OSState) (snk : Sink) :
    asyncIdxs (resolveSink st snk).2.events = asyncIdxs st.events
    ∧ syncIdxs (resolveSink st snk).2.events = syncIdxs st.events := by
  rcases snk <;>
    simp [resolveSink, OSState.openNew, OSState.emit, asyncIdxs, syncIdxs,
      Event.asyncIdx, Event.syncIdx]

/-- The loop over the stages: every stage but the last contributes exactly
one asynchronous spawn (indices in order), the last stage contributes the
single synchronous spawn, and the outcome is an error exactly when the last
exit status is non-zero, the error carrying that status. -/
theorem checkLoop_spawns (exits : List Int) (i : Nat) (stdin : Option Nat)
    (snk : Sink) (st : OSState) (hne : exits ≠ []) :
    asyncIdxs (runState (checkLoop exits i stdin snk st)).events
      = asyncIdxs st.events ++ List.range' i (exits.length - 1)
    ∧ syncIdxs (runState (checkLoop exits i stdin snk st)).events
      = syncIdxs st.events ++ [i + (exits.length - 1)]
    ∧ (∀ e st', checkLoop exits i stdin snk st = .error (e, st') →
        e = exits.getLast hne ∧ ¬ e = 0)
    ∧ (∀ st', checkLoop exits i stdin snk st = .ok st' →
        exits.getLast hne = 0) := by
  induction exits generalizing i stdin st with
  | nil => exact absurd rfl hne
  | cons e tail ih =>
    rcases tail with _ | ⟨e2, rest⟩
    · have hsink := resolveSink_idxs st snk
      by_cases he : e = 0
      · subst he
        rcases stdin with _ | fd <;>
          simp [checkLoop, runState, stepClose, asyncIdxs, syncIdxs,
            OSState.emit, OSState.close, Event.asyncIdx, Event.syncIdx,
            asyncIdxs.eq_def, syncIdxs.eq_def] <;>
          simp [← asyncIdxs.eq_def, ← syncIdxs.eq_def, hsink.1, hsink.2]
      · simp [checkLoop, he, runState, asyncIdxs, syncIdxs, OSState.emit,
          Event.asyncIdx, Event.syncIdx, asyncIdxs.eq_def, syncIdxs.eq_def]
        simp [← asyncIdxs.eq_def, ← syncIdxs.eq_def, hsink.1, hsink.2]
    · have hne2 : (e2 :: rest) ≠ [] := by simp
      have step :
          checkLoop (e :: e2 :: rest) i stdin snk st =
            checkLoop (e2 :: rest) (i + 1)
              (some (spawnStart st i stdin).1) snk
              (stepClose (spawnStart st i stdin).2 stdin) := rfl
      rw [step]
      have ihh := ih (i + 1) (some (spawnStart st i stdin).1)
        (stepClose (spawnStart st i stdin).2 stdin) hne2
      have hstidx :
          asyncIdxs (stepClose (spawnStart st i stdin).2 stdin).events
            = asyncIdxs st.events ++ [i]
          ∧ syncIdxs (stepClose (spawnStart st i stdin).2 stdin).events
            = syncIdxs st.events := by
        rcases stdin with _ | fd <;>
          simp [stepClose, spawnStart, OSState.emit, OSState.openNew,
            OSState.close, asyncIdxs, syncIdxs, Event.asyncIdx,
            Event.syncIdx]
      have hlast : (e :: e2 :: rest).getLast hne = (e2 :: rest).getLast hne2 :=
        List.getLast_cons hne2
      refine ⟨?_, ?_, ?_, ?_⟩
      · rw [ihh.1, hstidx.1]
        have : List.range' i (rest.length + 1) =
            i :: List.range' (i + 1) rest.length := List.range'_succ i _ 1
        simp [this, List.append_assoc]
      · rw [ihh.2.1, hstidx.2]
        have : i + 1 + ((e2 :: rest).length - 1) =
            i + ((e :: e2 :: rest).length - 1) := by
          simp
          omega
        rw [this]
      · intro ec st' hrun
        rw [hlast]
        exact ihh.2.2.1 ec st' hrun
      · intro st' hrun
        rw [hlast]
        exact ihh.2.2.2 st' hrun

/-- Claim C1: a pipeline run via `check` spawns every non-final stage
asynchronously (the asynchronous spawn indices are exactly 0..n-2, in
order, and no exit status of theirs enters the outcome), runs the final
stage synchronously (the single synchronous spawn has index n-1), and
raises a process-failure error carrying the final stage's exit status if
and only if that status is non-zero; the write-to operator delegates to
`check` after resolving its sink argument. -/
theorem claim_C1_terminal_stage_only (p : Pipeline) (exits : List Int)
    (snk : Sink) (st : OSState) (hne : exits ≠ [])
    (hlen : exits.length = p.commands.length) (hev : st.events = []) :
    asyncIdxs (runState (p.check exits snk st)).events
      = List.range (exits.length - 1)
    ∧ syncIdxs (runState (p.check exits snk st)).events
      = [exits.length - 1]
    ∧ (∀ e st', p.check exits snk st = .error (e, st') →
        e = exits.getLast hne ∧ ¬ e = 0)
    ∧ (∀ st', p.check exits snk st = .ok st' → exits.getLast hne = 0)
    ∧ p.gtOp exits .gtNone st = p.check exits .devnullS st
    ∧ (∀ o, p.gtOp exits (.gtShell o) st = p.check exits o st)
    ∧ (∀ k, p.gtOp exits (.gtSink k) st = p.check exits k st) := by
  have hres := resolveInput_idxs st p.stdin
  have hmain := checkLoop_spawns exits 0 (resolveInput st p.stdin).1 snk
    (resolveInput st p.stdin).2 hne
  have hempty : asyncIdxs st.events = [] ∧ syncIdxs st.events = [] := by
    simp [hev, asyncIdxs, syncIdxs]
  rw [Pipeline.check_def]
  refine ⟨?_, ?_, hmain.2.2.1, hmain.2.2.2, rfl, fun o => rfl, fun k => rfl⟩
  · rw [hmain.1, hres.1, hempty.1, List.range_eq_range']
    simp
  · rw [hmain.2.1, hres.2, hempty.2]
    simp

/-- Witness for C1: a two-stage pipeline whose first stage fails (status 5)
but whose final stage succeeds spawns stage 0 asynchronously and stage 1
synchronously. -/
theorem claim_C1_witness :
    asyncIdxs (runState (Pipeline.check
        ⟨[⟨"false", {}, {}⟩, ⟨"true", {}, {}⟩], Option.none⟩
        [5, 0] .pipeS {})).events = List.range 1
    ∧ syncIdxs (runState (Pipeline.check
        ⟨[⟨"false", {}, {}⟩, ⟨"true", {}, {}⟩], Option.none⟩
        [5, 0] .pipeS {})).events = [1] :=
  ⟨(claim_C1_terminal_stage_only
      ⟨[⟨"false", {}, {}⟩, ⟨"true", {}, {}⟩], Option.none⟩
      [5, 0] .pipeS {} (by simp) rfl rfl).1,
   (claim_C1_terminal_stage_only
      ⟨[⟨"false", {}, {}⟩, ⟨"true", {}, {}⟩], Option.none⟩
      [5, 0] .pipeS {} (by simp) rfl rfl).2.1⟩

/-- The stage index, stdin handle and open-descriptor snapshot recorded by
a spawn event (of either kind). -/
def Event.spawnInfo : Event → Option (Nat × Option Nat × List Nat)
  | .spawnAsync i s snap => some (i, s, snap)
  | .spawnSync i s _ snap => some (i, s, snap)
  | _ => Option.none

/-- No handle consumed as stdin by an earlier spawn is still open in the
snapshot taken when any later stage is spawned. -/
def SnapshotsExclude (events : List Event) : Prop :=
  ∀ e1, e1 ∈ events → ∀ e2, e2 ∈ events →
    ∀ i h snap1 j s2 snap2,
      Event.spawnInfo e1 = some (i, some h, snap1) →
      Event.spawnInfo e2 = some (j, s2, snap2) →
      i < j → h ∉ snap2

/-- Every stdin handle consumed by any recorded spawn is absent from the
given descriptor set. -/
def StdinsClosed (events : List Event) (fds : List Nat) : Prop :=
  ∀ e, e ∈ events → ∀ i h snap,
    Event.spawnInfo e = some (i, some h, snap) → h ∉ fds

/-- Appending a spawn event whose snapshot excludes all previously consumed
handles, and whose index is above all previously recorded indices, keeps
the snapshot property. -/
theorem snapshotsExclude_append (es : List Event) (ev : Event) (iev : Nat)
    (sev : Option Nat) (snapev : List Nat)
    (hev : Event.spawnInfo ev = some (iev, sev, snapev))
    (hex : SnapshotsExclude es)
    (hnotin : ∀ e1, e1 ∈ es → ∀ i h snap1,
        Event.spawnInfo e1 = some (i, some h, snap1) → h ∉ snapev)
    (hidx : ∀ e1, e1 ∈ es → ∀ i s snap1,
        Event.spawnInfo e1 = some (i, s, snap1) → i < iev) :
    SnapshotsExclude (es ++ [ev]) := by
  intro e1 he1 e2 he2 i h snap1 j s2 snap2 hsp1 hsp2 hij
  rcases List.mem_append.1 he1 with h1 | h1 <;>
    rcases List.mem_append.1 he2 with h2 | h2
  · exact hex e1 h1 e2 h2 i h snap1 j s2 snap2 hsp1 hsp2 hij
  · have he : e2 = ev := by simpa using h2
    subst he
    rw [hev] at hsp2
    obtain ⟨hj, hs, hsnap⟩ : iev = j ∧ sev = s2 ∧ snapev = snap2 := by
      simpa using hsp2
    subst hsnap
    exact hnotin e1 h1 i h snap1 hsp1
  · have he : e1 = ev := by simpa using h1
    subst he
    rw [hev] at hsp1
    obtain ⟨hi, hs, hsnap⟩ : iev = i ∧ sev = some h ∧ snapev = snap1 := by
      simpa using hsp1
    have := hidx e2 h2 j s2 snap2 hsp2
    omega
  · have he1v : e1 = ev := by simpa using h1
    have he2v : e2 = ev := by simpa using h2
    subst he1v; subst he2v
    rw [hev] at hsp1 hsp2
    obtain ⟨hi, _, _⟩ : iev = i ∧ sev = some h ∧ snapev = snap1 := by
      simpa using hsp1
    obtain ⟨hj, _, _⟩ : iev = j ∧ sev = s2 ∧ snapev = snap2 := by
      simpa using hsp2
    omega

/-- Appending a non-spawn event keeps the snapshot property. -/
theorem snapshotsExclude_append_nonspawn (es : List Event) (ev : Event)
    (hev : Event.spawnInfo ev = Option.none) (hex : SnapshotsExclude es) :
    SnapshotsExclude (es ++ [ev]) := by
  intro e1 he1 e2 he2 i h snap1 j s2 snap2 hsp1 hsp2 hij
  rcases List.mem_append.1 he1 with h1 | h1 <;>
    rcases List.mem_append.1 he2 with h2 | h2
  · exact hex e1 h1 e2 h2 i h snap1 j s2 snap2 hsp1 hsp2 hij
  · have he : e2 = ev := by simpa using h2
    subst he; rw [hev] at hsp2; cases hsp2
  · have he : e1 = ev := by simpa using h1
    subst he; rw [hev] at hsp1; cases hsp1
  · have he : e1 = ev := by simpa using h1
    subst he; rw [hev] at hsp1; cases hsp1

/-- Appending a non-spawn event keeps all recorded stdin handles closed. -/
theorem stdinsClosed_append_nonspawn (es : List Event) (fds : List Nat)
    (ev : Event) (hev : Event.spawnInfo ev = Option.none)
    (h : StdinsClosed es fds) : StdinsClosed (es ++ [ev]) fds := by
  intro e he i hh snap hsp
  rcases List.mem_append.1 he with hm | hm
  · exact h e hm i hh snap hsp
  · have heq : e = ev := by simpa using hm
    subst heq; rw [hev] at hsp; cases hsp

/-- Shrinking the descriptor set keeps all recorded handles closed. -/
theorem stdinsClosed_sub (es : List Event) (fds fds' : List Nat)
    (hsub : ∀ x, x ∈ fds' → x ∈ fds) (h : StdinsClosed es fds) :
    StdinsClosed es fds' :=
  fun e he i hh snap hsp hx => h e he i hh snap hsp (hsub hh hx)

/-- Loop invariant of the stage loop: every recorded stdin handle is
already closed, the snapshot property holds for the trace so far, open and
recorded descriptors sit below the allocation counter, recorded stage
indices sit below the current index, and the carried stdin handle (when
owned) is an allocated descriptor. -/
structure LoopInv (st : OSState) (i : Nat) (stdin : Option Nat) : Prop where
  closed : StdinsClosed st.events st.openFds
  excl : SnapshotsExclude st.events
  fdsLt : ∀ fd, fd ∈ st.openFds → fd < st.nextFd
  spawnLt : ∀ e, e ∈ st.events → ∀ j s snap,
    Event.spawnInfo e = some (j, s, snap) →
    j < i ∧ ∀ h, s = some h → h < st.nextFd
  stdinLt : ∀ h, stdin = some h → h < st.nextFd

/-- The pipe read end handed back by an asynchronous spawn is the freshly
allocated descriptor. -/
theorem spawnStart_fst (st : OSState) (i : Nat) (stdin : Option Nat) :
    (spawnStart st i stdin).1 = st.nextFd := rfl

/-- Allocating a fresh descriptor while recording a non-spawn event
preserves the loop invariant. -/
theorem LoopInv.extendFresh {st : OSState} {i : Nat} {stdin : Option Nat}
    (hinv : LoopInv st i stdin) (ev : Event)
    (hev : Event.spawnInfo ev = Option.none) :
    LoopInv { nextFd := st.nextFd + 1, openFds := st.openFds ++ [st.nextFd],
              events := st.events ++ [ev] } i stdin := by
  refine ⟨?_, ?_, ?_, ?_, ?_⟩
  · intro e he j hh snap hsp hx
    rcases List.mem_append.1 he with hm | hm
    · rcases List.mem_append.1 hx with hf | hf
      · exact hinv.closed e hm j hh snap hsp hf
      · have hb := (hinv.spawnLt e hm j (some hh) snap hsp).2 hh rfl
        have : hh = st.nextFd := by simpa using hf
        omega
    · have heq : e = ev := by simpa using hm
      subst heq; rw [hev] at hsp; cases hsp
  · exact snapshotsExclude_append_nonspawn st.events ev hev hinv.excl
  · intro fd hf
    show fd < st.nextFd + 1
    rcases List.mem_append.1 hf with hm | hm
    · have := hinv.fdsLt fd hm; omega
    · have : fd = st.nextFd := by simpa using hm
      omega
  · intro e he j s snap hsp
    rcases List.mem_append.1 he with hm | hm
    · obtain ⟨h1, h2⟩ := hinv.spawnLt e hm j s snap hsp
      exact ⟨h1, fun h hh => by
        have := h2 h hh; show h < st.nextFd + 1; omega⟩
    · have heq : e = ev := by simpa using hm
      subst heq; rw [hev] at hsp; cases hsp
  · intro h hh
    have := hinv.stdinLt h hh
    show h < st.nextFd + 1
    omega

/-- Sink resolution preserves the loop invariant. -/
theorem LoopInv.sinkInv {st : OSState} {i : Nat} {stdin : Option Nat}
    (hinv : LoopInv st i stdin) (snk : Sink) :
    LoopInv (resolveSink st snk).2 i stdin := by
  rcases snk with _ | _ | _ | p | b | p | hfd
  · exact hinv
  · exact hinv
  · exact hinv
  · exact hinv.extendFresh (.openWrite st.nextFd) rfl
  · exact hinv.extendFresh (.openWrite st.nextFd) rfl
  · exact hinv.extendFresh (.openWrite st.nextFd) rfl
  · exact hinv

/-- One non-final iteration — record the asynchronous spawn, hand out the
fresh pipe read end, close the consumed stdin handle — re-establishes the
loop invariant at the next index. -/
theorem LoopInv.step {st : OSState} {i : Nat} {stdin : Option Nat}
    (hinv : LoopInv st i stdin) :
    LoopInv (stepClose (spawnStart st i stdin).2 stdin) (i + 1)
      (some (spawnStart st i stdin).1) := by
  rcases stdin with _ | fd
  · refine ⟨?_, ?_, ?_, ?_, ?_⟩
    · intro e he j hh snap hsp hx
      rcases List.mem_append.1 he with hm | hm
      · rcases List.mem_append.1 hx with hf | hf
        · exact hinv.closed e hm j hh snap hsp hf
        · have hb := (hinv.spawnLt e hm j (some hh) snap hsp).2 hh rfl
          have : hh = st.nextFd := by simpa using hf
          omega
      · have heq : e = Event.spawnAsync i Option.none st.openFds := by
          simpa using hm
        subst heq
        simp [Event.spawnInfo] at hsp
    · apply snapshotsExclude_append st.events
        (Event.spawnAsync i Option.none st.openFds) i Option.none
        st.openFds rfl hinv.excl
      · intro e1 h1 j hh snap1 hsp1
        exact hinv.closed e1 h1 j hh snap1 hsp1
      · intro e1 h1 j s snap1 hsp1
        exact (hinv.spawnLt e1 h1 j s snap1 hsp1).1
    · intro fd hf
      show fd < st.nextFd + 1
      rcases List.mem_append.1 hf with hm | hm
      · have := hinv.fdsLt fd hm; omega
      · have : fd = st.nextFd := by simpa using hm
        omega
    · intro e he j s snap hsp
      rcases List.mem_append.1 he with hm | hm
      · obtain ⟨h1, h2⟩ := hinv.spawnLt e hm j s snap hsp
        exact ⟨by omega, fun h hh => by
          have := h2 h hh; show h < st.nextFd + 1; omega⟩
      · have heq : e = Event.spawnAsync i Option.none st.openFds := by
          simpa using hm
        subst heq
        simp only [Event.spawnInfo, Option.some.injEq, Prod.mk.injEq] at hsp
        obtain ⟨hj, hs, _⟩ := hsp
        refine ⟨by omega, fun h hh => ?_⟩
        rw [← hs] at hh
        cases hh
    · intro h hh
      have hx : st.nextFd = h := by simpa [spawnStart_fst] using hh
      show h < st.nextFd + 1
      omega
  · refine ⟨?_, ?_, ?_, ?_, ?_⟩
    · intro e he j hh snap hsp hx
      have hx2 : (hh ∈ st.openFds ∨ hh = st.nextFd) ∧ ¬ hh = fd := by
        have := List.mem_filter.1 hx
        simpa [spawnStart, OSState.emit, OSState.openNew] using this
      rcases List.mem_append.1 he with hm | hm
      · rcases List.mem_append.1 hm with hmm | hmm
        · rcases hx2.1 with hf | hf
          · exact hinv.closed e hmm j hh snap hsp hf
          · have hb := (hinv.spawnLt e hmm j (some hh) snap hsp).2 hh rfl
            omega
        · have heq : e = Event.spawnAsync i (some fd) st.openFds := by
            simpa using hmm
          subst heq
          simp only [Event.spawnInfo, Option.some.injEq, Prod.mk.injEq] at hsp
          obtain ⟨_, hs, _⟩ := hsp
          exact hx2.2 hs.symm
      · have heq : e = Event.closeFd fd := by simpa using hm
        subst heq
        simp [Event.spawnInfo] at hsp
    · apply snapshotsExclude_append_nonspawn
        (st.events ++ [Event.spawnAsync i (some fd) st.openFds])
        (Event.closeFd fd) rfl
      apply snapshotsExclude_append st.events
        (Event.spawnAsync i (some fd) st.openFds) i (some fd) st.openFds rfl
        hinv.excl
      · intro e1 h1 j hh snap1 hsp1
        exact hinv.closed e1 h1 j hh snap1 hsp1
      · intro e1 h1 j s snap1 hsp1
        exact (hinv.spawnLt e1 h1 j s snap1 hsp1).1
    · intro fd2 hf
      show fd2 < st.nextFd + 1
      have hx2 : fd2 ∈ st.openFds ++ [st.nextFd] := (List.mem_filter.1 hf).1
      rcases List.mem_append.1 hx2 with hm | hm
      · have := hinv.fdsLt fd2 hm; omega
      · have : fd2 = st.nextFd := by simpa using hm
        omega
    · intro e he j s snap hsp
      rcases List.mem_append.1 he with hm | hm
      · rcases List.mem_append.1 hm with hmm | hmm
        · obtain ⟨h1, h2⟩ := hinv.spawnLt e hmm j s snap hsp
          exact ⟨by omega, fun h hh => by
            have := h2 h hh; show h < st.nextFd + 1; omega⟩
        · have heq : e = Event.spawnAsync i (some fd) st.openFds := by
            simpa using hmm
          subst heq
          simp only [Event.spawnInfo, Option.some.injEq, Prod.mk.injEq] at hsp
          obtain ⟨hj, hs, _⟩ := hsp
          refine ⟨by omega, fun h hh => ?_⟩
          rw [← hs] at hh
          have hfh : fd = h := by simpa using hh
          have := hinv.stdinLt fd rfl
          show h < st.nextFd + 1
          omega
      · have heq : e = Event.closeFd fd := by simpa using hm
        subst heq
        simp [Event.spawnInfo] at hsp
    · intro h hh
      have hx : st.nextFd = h := by simpa [spawnStart_fst] using hh
      show h < st.nextFd + 1
      omega

/-- Unfolding of the single-stage (final) case of the loop. -/
theorem checkLoop_single (e : Int) (i : Nat) (stdin : Option Nat)
    (snk : Sink) (st : OSState) :
    checkLoop [e] i stdin snk st =
      (if e = 0 then
        .ok (stepClose ((resolveSink st snk).2.emit
          (.spawnSync i stdin e (resolveSink st snk).2.openFds)) stdin)
      else .error (e, (resolveSink st snk).2.emit
          (.spawnSync i stdin e (resolveSink st snk).2.openFds))) := rfl

/-- The closing discipline of the stage loop: under the loop invariant,
the snapshot taken at every spawn excludes every stdin handle consumed by
an earlier spawn (whether the run returns or raises), and on a normal
return every consumed stdin handle has been closed. -/
theorem checkLoop_closes (exits : List Int) (i : Nat) (stdin : Option Nat)
    (snk : Sink) (st : OSState) (hinv : LoopInv st i stdin) :
    SnapshotsExclude (runState (checkLoop exits i stdin snk st)).events
    ∧ ∀ st', checkLoop exits i stdin snk st = .ok st' →
        StdinsClosed st'.events st'.openFds := by
  induction exits generalizing i stdin st with
  | nil =>
    exact ⟨hinv.excl, fun st' hok => by cases hok; exact hinv.closed⟩
  | cons e tail ih =>
    rcases tail with _ | ⟨e2, rest⟩
    · have hA := hinv.sinkInv snk
      have hexclB : SnapshotsExclude ((resolveSink st snk).2.events ++
          [Event.spawnSync i stdin e (resolveSink st snk).2.openFds]) := by
        apply snapshotsExclude_append (resolveSink st snk).2.events
          (Event.spawnSync i stdin e (resolveSink st snk).2.openFds) i stdin
          (resolveSink st snk).2.openFds rfl hA.excl
        · intro e1 h1 j hh snap1 hsp1
          exact hA.closed e1 h1 j hh snap1 hsp1
        · intro e1 h1 j s snap1 hsp1
          exact (hA.spawnLt e1 h1 j s snap1 hsp1).1
      rw [checkLoop_single]
      by_cases he : e = 0
      · subst he
        rw [if_pos rfl]
        constructor
        · rcases stdin with _ | fd
          · exact hexclB
          · exact snapshotsExclude_append_nonspawn _ _ rfl hexclB
        · intro st' hok
          have hst' : st' = stepClose ((resolveSink st snk).2.emit
              (.spawnSync i stdin 0 (resolveSink st snk).2.openFds)) stdin := by
            cases hok; rfl
          subst hst'
          rcases stdin with _ | fd
          · intro e1 he1 j hh snap hsp
            rcases List.mem_append.1 he1 with hm | hm
            · exact hA.closed e1 hm j hh snap hsp
            · have heq : e1 = Event.spawnSync i Option.none 0
                  (resolveSink st snk).2.openFds := by simpa using hm
              subst heq
              simp only [Event.spawnInfo, Option.some.injEq,
                Prod.mk.injEq] at hsp
              obtain ⟨_, hs, _⟩ := hsp
              cases hs
          · intro e1 he1 j hh snap hsp hx
            have hx2 : hh ∈ (resolveSink st snk).2.openFds ∧ ¬ hh = fd := by
              have := List.mem_filter.1 hx
              simpa using this
            rcases List.mem_append.1 he1 with hm | hm
            · rcases List.mem_append.1 hm with hmm | hmm
              · exact hA.closed e1 hmm j hh snap hsp hx2.1
              · have heq : e1 = Event.spawnSync i (some fd) 0
                    (resolveSink st snk).2.openFds := by simpa using hmm
                subst heq
                simp only [Event.spawnInfo, Option.some.injEq,
                  Prod.mk.injEq] at hsp
                obtain ⟨_, hs, _⟩ := hsp
                have : hh = fd := by
                  have := hs.symm
                  simpa using this
                exact hx2.2 this
            · have heq : e1 = Event.closeFd fd := by simpa using hm
              subst heq
              simp [Event.spawnInfo] at hsp
      · rw [if_neg he]
        exact ⟨hexclB, fun st' hok => by cases hok⟩
    · exact ih (i + 1) (some (spawnStart st i stdin).1)
        (stepClose (spawnStart st i stdin).2 stdin) hinv.step

/-- A trace of non-spawn events leaves every descriptor set trivially
clear of consumed stdin handles. -/
theorem stdinsClosed_of_nonspawn (es : List Event) (fds : List Nat)
    (hns : ∀ e, e ∈ es → Event.spawnInfo e = Option.none) :
    StdinsClosed es fds := by
  intro e he i hh snap hsp
  rw [hns e he] at hsp
  cases hsp

/-- A trace of non-spawn events satisfies the snapshot property trivially. -/
theorem snapshotsExclude_of_nonspawn (es : List Event)
    (hns : ∀ e, e ∈ es → Event.spawnInfo e = Option.none) :
    SnapshotsExclude es := by
  intro e1 he1 e2 he2 i h snap1 j s2 snap2 hsp1 hsp2 hij
  rw [hns e1 he1] at hsp1
  cases hsp1

/-- Claim C5: during a `check` run started on a fresh trace, the snapshot
of open descriptors taken whenever a stage is spawned contains no stdin
handle consumed by an earlier stage, and when the call returns normally
every stdin handle any stage consumed (every owned handle — anything but
the inherit marker) has been closed. -/
theorem claim_C5_input_handles_closed (p : Pipeline) (exits : List Int)
    (snk : Sink) (st : OSState) (hev : st.events = [])
    (hfds : ∀ fd, fd ∈ st.openFds → fd < st.nextFd)
    (hsrc : ∀ h, p.stdin = some (.srcHandle h) → h < st.nextFd) :
    SnapshotsExclude (runState (p.check exits snk st)).events
    ∧ ∀ st', p.check exits snk st = .ok st' →
        StdinsClosed st'.events st'.openFds := by
  rw [Pipeline.check_def]
  apply checkLoop_closes
  rcases hps : p.stdin with _ | src
  · show LoopInv st 0 Option.none
    refine ⟨?_, ?_, hfds, ?_, ?_⟩
    · apply stdinsClosed_of_nonspawn
      intro e he
      rw [hev] at he
      cases he
    · apply snapshotsExclude_of_nonspawn
      intro e he
      rw [hev] at he
      cases he
    · intro e he
      rw [hev] at he
      cases he
    · intro h hh
      cases hh
  · rcases src with s | b | q | h0
    · show LoopInv
        { nextFd := st.nextFd + 2,
          openFds := (st.openFds ++ [st.nextFd, st.nextFd + 1]).filter
            (fun x => x ≠ st.nextFd + 1),
          events := (st.events ++
            [Event.pipeCreate st.nextFd (st.nextFd + 1),
             Event.writeBytes (st.nextFd + 1) (encodeStr s)]) ++
            [Event.closeFd (st.nextFd + 1)] }
        0 (some st.nextFd)
      have hns : ∀ e, e ∈ (st.events ++
          [Event.pipeCreate st.nextFd (st.nextFd + 1),
           Event.writeBytes (st.nextFd + 1) (encodeStr s)]) ++
          [Event.closeFd (st.nextFd + 1)] →
          Event.spawnInfo e = Option.none := by
        intro e he
        rw [hev] at he
        simp at he
        rcases he with h1 | h1 | h1 <;> subst h1 <;> rfl
      refine ⟨stdinsClosed_of_nonspawn _ _ hns,
        snapshotsExclude_of_nonspawn _ hns, ?_,
        fun e he j s2 snap hsp => absurd hsp (by rw [hns e he]; simp), ?_⟩
      · intro fd hf
        show fd < st.nextFd + 2
        have hx : fd ∈ st.openFds ++ [st.nextFd, st.nextFd + 1] :=
          (List.mem_filter.1 hf).1
        rcases List.mem_append.1 hx with hm | hm
        · have := hfds fd hm; omega
        · simp at hm; omega
      · intro h hh
        have : st.nextFd = h := by simpa using hh
        show h < st.nextFd + 2
        omega
    · show LoopInv
        { nextFd := st.nextFd + 2,
          openFds := (st.openFds ++ [st.nextFd, st.nextFd + 1]).filter
            (fun x => x ≠ st.nextFd + 1),
          events := (st.events ++
            [Event.pipeCreate st.nextFd (st.nextFd + 1),
             Event.writeBytes (st.nextFd + 1) b]) ++
            [Event.closeFd (st.nextFd + 1)] }
        0 (some st.nextFd)
      have hns : ∀ e, e ∈ (st.events ++
          [Event.pipeCreate st.nextFd (st.nextFd + 1),
           Event.writeBytes (st.nextFd + 1) b]) ++
          [Event.closeFd (st.nextFd + 1)] →
          Event.spawnInfo e = Option.none := by
        intro e he
        rw [hev] at he
        simp at he
        rcases he with h1 | h1 | h1 <;> subst h1 <;> rfl
      refine ⟨stdinsClosed_of_nonspawn _ _ hns,
        snapshotsExclude_of_nonspawn _ hns, ?_,
        fun e he j s2 snap hsp => absurd hsp (by rw [hns e he]; simp), ?_⟩
      · intro fd hf
        show fd < st.nextFd + 2
        have hx : fd ∈ st.openFds ++ [st.nextFd, st.nextFd + 1] :=
          (List.mem_filter.1 hf).1
        rcases List.mem_append.1 hx with hm | hm
        · have := hfds fd hm; omega
        · simp at hm; omega
      · intro h hh
        have : st.nextFd = h := by simpa using hh
        show h < st.nextFd + 2
        omega
    · show LoopInv
        { nextFd := st.nextFd + 1,
          openFds := st.openFds ++ [st.nextFd],
          events := st.events ++ [Event.openRead q st.nextFd] }
        0 (some st.nextFd)
      have hns : ∀ e, e ∈ st.events ++ [Event.openRead q st.nextFd] →
          Event.spawnInfo e = Option.none := by
        intro e he
        rw [hev] at he
        simp at he
        subst he
        rfl
      refine ⟨stdinsClosed_of_nonspawn _ _ hns,
        snapshotsExclude_of_nonspawn _ hns, ?_,
        fun e he j s2 snap hsp => absurd hsp (by rw [hns e he]; simp), ?_⟩
      · intro fd hf
        show fd < st.nextFd + 1
        rcases List.mem_append.1 hf with hm | hm
        · have := hfds fd hm; omega
        · simp at hm; omega
      · intro h hh
        have : st.nextFd = h := by simpa using hh
        show h < st.nextFd + 1
        omega
    · show LoopInv st 0 (some h0)
      refine ⟨?_, ?_, hfds, ?_, ?_⟩
      · apply stdinsClosed_of_nonspawn
        intro e he
        rw [hev] at he
        cases he
      · apply snapshotsExclude_of_nonspawn
        intro e he
        rw [hev] at he
        cases he
      · intro e he
        rw [hev] at he
        cases he
      · intro h hh
        have : h0 = h := by simpa using hh
        subst this
        exact hsrc h0 hps

/-- Witness for C5: a two-stage pipeline fed from text, run to the capture
sink on a fresh state, satisfies the snapshot property and closes every
consumed stdin handle on return. -/
theorem claim_C5_witness :
    SnapshotsExclude (runState (Pipeline.check
        ⟨[⟨"cat", {}, {}⟩, ⟨"cat", {}, {}⟩], some (.srcStr "hi")⟩
        [0, 0] .pipeS {})).events :=
  (claim_C5_input_handles_closed
    ⟨[⟨"cat", {}, {}⟩, ⟨"cat", {}, {}⟩], some (.srcStr "hi")⟩
    [0, 0] .pipeS {} rfl (by simp) (by intro h hh; simp at hh)).1

end Shush
